import Mathlib

/-!
Verification of the motif-discovery repository (EM motif search over DNA
sequences and leave-one-out Gibbs sampling over protein sequences).

The two Python source files are shallowly embedded here:

* expectation_maximisation_algorithm.py : alphabet "ATGC"; functions
  initialize_pfm, motif_probability, background_probability,
  calculate_expectation, maximize_expectation, has_converged.
* gibbs_sampling.py : fixed protein alphabet of 20 residues, fixed motif
  length M = 12, pseudocount 1e-6; functions build_ppm, ppm_to_pwm,
  calculate_background_probabilities,
  generate_distribution_for_left_out_sequence, choose_left_out_sequence,
  and the main sampling loop.

Python floats are modelled as exact rationals; math.log base 2 is modelled
with Real.logb 2.  A Python statement that would raise (ZeroDivisionError,
IndexError on an empty sequence list) is modelled by an Option-valued
wrapper returning none exactly when some division in the function divides
by zero; the underlying arithmetic is factored into total functions so that
individual cells and column sums can be stated directly.  Dictionary
matrices such as pfm = {base: [..] for base in "ATGC"} are modelled as
functions Char -> List Rat; the in-place accumulation loops
(pfm[base][i] += w) are modelled by folding the update list with accum
below, in the same iteration order as the source.
-/

namespace Motif

/-! ### Generic helpers -/

/-- Number of loop iterations of Python range(len - L + 1) where len and L
are data lengths: for len + 1 less than or equal to L the range is empty,
matching Python integer semantics (modelled via Int before truncation). -/
def numWindows (len L : ℕ) : ℕ := ((len : ℤ) - L + 1).toNat

/-- One in-place dictionary update pfm[t.1][t.2.1] += t.2.2 on a matrix
represented as a function. -/
def bump (f : Char → ℕ → ℚ) (t : Char × ℕ × ℚ) : Char → ℕ → ℚ :=
  fun c k => if c = t.1 ∧ k = t.2.1 then f c k + t.2.2 else f c k

/-- Replay of an accumulation loop: all += updates, in source order, applied
to the all-zero matrix. -/
def accum (l : List (Char × ℕ × ℚ)) : Char → ℕ → ℚ :=
  l.foldl bump (fun _ _ => 0)

theorem foldl_bump_apply (l : List (Char × ℕ × ℚ)) (f : Char → ℕ → ℚ)
    (b : Char) (i : ℕ) :
    (l.foldl bump f) b i
      = f b i + (l.map (fun t => if b = t.1 ∧ i = t.2.1 then t.2.2 else 0)).sum := by
  induction l generalizing f with
  | nil => simp
  | cons t l ih =>
      simp only [List.foldl_cons, ih, List.map_cons, List.sum_cons]
      by_cases h : b = t.1 ∧ i = t.2.1
      · simp only [bump, if_pos h, if_pos h]
        ring
      · simp only [bump, if_neg h, if_neg h]
        ring

/-- The matrix cell produced by an accumulation loop is the sum of the
weights of the updates that hit that cell. -/
theorem accum_apply (l : List (Char × ℕ × ℚ)) (b : Char) (i : ℕ) :
    accum l b i = (l.map (fun t => if b = t.1 ∧ i = t.2.1 then t.2.2 else 0)).sum := by
  simpa using foldl_bump_apply l (fun _ _ => 0) b i

theorem sum_map_add {α : Type} (l : List α) (f g : α → ℚ) :
    (l.map (fun a => f a + g a)).sum = (l.map f).sum + (l.map g).sum := by
  induction l with
  | nil => simp
  | cons a l ih => simp only [List.map_cons, List.sum_cons, ih]; ring

theorem sum_map_comm {α β : Type} (l₁ : List α) (l₂ : List β) (f : α → β → ℚ) :
    (l₁.map (fun a => (l₂.map (f a)).sum)).sum
      = (l₂.map (fun b => (l₁.map (fun a => f a b)).sum)).sum := by
  induction l₁ with
  | nil => simp
  | cons a l ih =>
      simp only [List.map_cons, List.sum_cons, ih, ← sum_map_add]

theorem sum_map_div (l : List ℚ) (c : ℚ) :
    (l.map (fun x => x / c)).sum = l.sum / c := by
  induction l with
  | nil => simp
  | cons a l ih => simp only [List.map_cons, List.sum_cons, ih, add_div]

theorem sum_flatMap {α β : Type} (l : List α) (f : α → List β) (g : β → ℚ) :
    ((l.flatMap f).map g).sum = (l.map (fun a => ((f a).map g).sum)).sum := by
  induction l with
  | nil => simp
  | cons a l ih => simp [List.flatMap_cons, ih]

theorem sum_range_ite (n i : ℕ) (w : ℚ) :
    ((List.range n).map (fun k => if i = k then w else 0)).sum
      = if i < n then w else 0 := by
  induction n with
  | zero => simp
  | succ n ih =>
      rw [List.range_succ, List.map_append, List.sum_append, ih]
      by_cases h : i < n
      · have : i ≠ n := Nat.ne_of_lt h
        simp [h, Nat.lt_succ_of_lt h, this]
      · by_cases h2 : i = n
        · simp [h, h2]
        · have : ¬ i < n + 1 := by omega
          simp [h, h2, this]

theorem sum_ind_of_mem (alph : List Char) (hnd : alph.Nodup) (c : Char)
    (hc : c ∈ alph) (w : ℚ) :
    (alph.map (fun b => if b = c then w else 0)).sum = w := by
  induction alph with
  | nil => cases hc
  | cons a l ih =>
      rw [List.map_cons, List.sum_cons]
      by_cases h : a = c
      · have hcl : c ∉ l := by
          intro hmem
          exact (List.nodup_cons.mp hnd).1 (by rw [h]; exact hmem)
        have hzero : (l.map (fun b => if b = c then w else 0)).sum = 0 := by
          apply List.sum_eq_zero
          intro x hx
          rcases List.mem_map.mp hx with ⟨b, hb, hbx⟩
          have hbne : b ≠ c := by
            intro he
            exact hcl (by rw [← he]; exact hb)
          simpa [hbne] using hbx.symm
        simp [h, hzero]
      · have hcl : c ∈ l := by
          rcases List.mem_cons.mp hc with h' | h'
          · exact absurd h'.symm h
          · exact h'
        rw [ih (List.nodup_cons.mp hnd).2 hcl]
        simp [h]

theorem getD_map_range {α : Type} (f : ℕ → α) (n i : ℕ) (d : α) (h : i < n) :
    ((List.range n).map f).getD i d = f i := by
  have h1 : ((List.range n).map f)[i]? = some (f i) := by
    rw [List.getElem?_map, List.getElem?_range h]
    rfl
  simp [List.getD, h1]

theorem getD_mem {α : Type} (l : List α) (i : ℕ) (d : α) (h : i < l.length) :
    l.getD i d ∈ l := by
  rw [List.getD_eq_getElem l d h]
  exact List.getElem_mem h

theorem foldl_mul_map {α : Type} (l : List α) (f : α → ℚ) (c : ℚ) :
    l.foldl (fun p a => p * f a) c = c * (l.map f).prod := by
  induction l generalizing c with
  | nil => simp
  | cons a l ih => simp only [List.foldl_cons, List.map_cons, List.prod_cons, ih]; ring

theorem window_index_lt (len L start i : ℕ) (hs : start < numWindows len L)
    (hi : i < L) : start + i < len := by
  unfold numWindows at hs
  omega

/-! ### EM source embedding (expectation_maximisation_algorithm.py) -/

/-- The DNA alphabet string "ATGC" iterated over by every EM loop. -/
def dnaAlphabet : List Char := ['A', 'T', 'G', 'C']

/-- Denominator len(sequences[0]) - motif_length + 1 of the uniform site
weight computed at the start of initialize_pfm. -/
def emWeightDen (seqs : List (List Char)) (L : ℕ) : ℚ :=
  ((seqs.headD []).length : ℚ) - (L : ℚ) + 1

/-- weight = 1 / (len(sequences[0]) - motif_length + 1). -/
def emWeight (seqs : List (List Char)) (L : ℕ) : ℚ := 1 / emWeightDen seqs L

/-- Trace of the += updates performed by the PFM loop of initialize_pfm:
for each sequence, for each window start, for each column i, add the site
weight to cell (sequence[start + i], i). -/
def initContribs (seqs : List (List Char)) (L : ℕ) : List (Char × ℕ × ℚ) :=
  seqs.flatMap (fun seq =>
    (List.range (numWindows seq.length L)).flatMap (fun start =>
      (List.range L).map (fun i => (seq.getD (start + i) '?', i, emWeight seqs L))))

/-- The raw (unnormalized) PFM accumulated by initialize_pfm. -/
def initPfm0 (seqs : List (List Char)) (L : ℕ) : Char → ℕ → ℚ :=
  accum (initContribs seqs L)

/-- total_at_position of initialize_pfm: column sum of the raw PFM. -/
def initColTotal (seqs : List (List Char)) (L : ℕ) (i : ℕ) : ℚ :=
  (dnaAlphabet.map (fun b => initPfm0 seqs L b i)).sum

/-- The column-normalized PFM returned by initialize_pfm. -/
def initPfm (seqs : List (List Char)) (L : ℕ) : Char → List ℚ :=
  fun b => (List.range L).map (fun i => initPfm0 seqs L b i / initColTotal seqs L i)

/-- total_bases = sum(len(seq) for seq in sequences). -/
def totalBases (seqs : List (List Char)) : ℚ :=
  (seqs.map (fun s => (s.length : ℚ))).sum

/-- Per-base occurrence count over whole sequences, sequence.count(base)
summed over the corpus. -/
def bgCounts (seqs : List (List Char)) (b : Char) : ℚ :=
  (seqs.map (fun s => ((s.count b : ℕ) : ℚ))).sum

/-- The background distribution returned by initialize_pfm. -/
def initBg (seqs : List (List Char)) : Char → ℚ :=
  fun b => bgCounts seqs b / totalBases seqs

/-- initialize_pfm(sequences, motif_length).  Returns none exactly when the
Python function raises: sequences empty (IndexError on sequences[0]), the
weight denominator zero, a column total zero, or total_bases zero
(ZeroDivisionError).  There is no other failure path: in particular no
InvalidMotifLength check exists in the source. -/
def build_initial_pfm (seqs : List (List Char)) (L : ℕ) :
    Option ((Char → List ℚ) × (Char → ℚ)) :=
  if seqs ≠ [] ∧ emWeightDen seqs L ≠ 0 ∧ (∀ i < L, initColTotal seqs L i ≠ 0)
      ∧ totalBases seqs ≠ 0
  then some (initPfm seqs L, initBg seqs)
  else none

/-- motif_probability(site, pfm): starts at 1e-6 and multiplies the PFM
entry of each site column in order. -/
def motif_probability (site : List Char) (pfm : Char → List ℚ) : ℚ :=
  site.enum.foldl (fun p t => p * (pfm t.2).getD t.1 0) (1 / 1000000)

/-- background_probability(site, background): starts at 1e-6 and multiplies
the background probability of each site symbol. -/
def background_probability (site : List Char) (background : Char → ℚ) : ℚ :=
  site.foldl (fun p b => p * background b) (1 / 1000000)

/-- The candidate sites sequence[start : start + L] of one sequence. -/
def sitesOf (seq : List Char) (L : ℕ) : List (List Char) :=
  (List.range (numWindows seq.length L)).map (fun start => (seq.drop start).take L)

/-- The unnormalized weights bp / (bp + bg) of one sequence in
calculate_expectation. -/
def exRow0 (seq : List Char) (pfm : Char → List ℚ) (bg : Char → ℚ) (L : ℕ) :
    List ℚ :=
  (sitesOf seq L).map (fun site =>
    motif_probability site pfm
      / (motif_probability site pfm + background_probability site bg))

/-- The normalized responsibilities of one sequence in
calculate_expectation. -/
def exRow (seq : List Char) (pfm : Char → List ℚ) (bg : Char → ℚ) (L : ℕ) :
    List ℚ :=
  (exRow0 seq pfm bg L).map (fun x => x / (exRow0 seq pfm bg L).sum)

/-- calculate_expectation(sequences, pfm, background, motif_length).
Returns none exactly when Python raises ZeroDivisionError: a sequence
with at least one valid window has a site with bp + bg = 0, or a nonzero
number of weights summing to 0.  A sequence with no valid window at all
contributes empty lists, over which the normalizing comprehensions never
divide, so the function succeeds and returns an empty row for it. -/
def calculate_expectation (seqs : List (List Char)) (pfm : Char → List ℚ)
    (bg : Char → ℚ) (L : ℕ) : Option (List (List ℚ)) :=
  if ∀ seq ∈ seqs, sitesOf seq L ≠ [] →
      (∀ site ∈ sitesOf seq L,
        motif_probability site pfm + background_probability site bg ≠ 0)
      ∧ (exRow0 seq pfm bg L).sum ≠ 0
  then some (seqs.map (fun seq => exRow seq pfm bg L))
  else none

/-- Trace of the += updates of the PFM loop of maximize_expectation: for
sequence number sid and window start, add weighted_probs[sid][start] to
cell (sequence[start + i], i) for every column i. -/
def maxContribs (seqs : List (List Char)) (w : List (List ℚ)) (L : ℕ) :
    List (Char × ℕ × ℚ) :=
  (List.range seqs.length).flatMap (fun sid =>
    (List.range (numWindows (seqs.getD sid []).length L)).flatMap (fun start =>
      (List.range L).map (fun i =>
        ((seqs.getD sid []).getD (start + i) '?', i, (w.getD sid []).getD start 0))))

/-- The re-estimated PFM of maximize_expectation: accumulated
responsibilities divided by len(sequences). -/
def maximize_pfm (seqs : List (List Char)) (w : List (List ℚ)) (L : ℕ) :
    Char → List ℚ :=
  fun b => (List.range L).map (fun i =>
    accum (maxContribs seqs w L) b i / (seqs.length : ℚ))

/-- Total of the re-estimated background counts of maximize_expectation
(sum over the four dictionary values, unlike total_bases of
initialize_pfm). -/
def maxBgTotal (seqs : List (List Char)) : ℚ :=
  (dnaAlphabet.map (fun b => bgCounts seqs b)).sum

/-- The re-estimated background of maximize_expectation. -/
def maximize_bg (seqs : List (List Char)) : Char → ℚ :=
  fun b => bgCounts seqs b / maxBgTotal seqs

/-- maximize_expectation(sequences, background, weighted_probs,
motif_length); the background argument is never read by the source. -/
def maximize_expectation (seqs : List (List Char)) (_background : Char → ℚ)
    (w : List (List ℚ)) (L : ℕ) : (Char → List ℚ) × (Char → ℚ) :=
  (maximize_pfm seqs w L, maximize_bg seqs)

/-! ### Gibbs source embedding (gibbs_sampling.py) -/

/-- protein_alphabet = "ACDEFGHIKLMNPQRSTVWY". -/
def protein_alphabet : List Char :=
  ['A', 'C', 'D', 'E', 'F', 'G', 'H', 'I', 'K', 'L',
   'M', 'N', 'P', 'Q', 'R', 'S', 'T', 'V', 'W', 'Y']

/-- Motif length M = 12, fixed at module scope in the source. -/
def M : ℕ := 12

/-- pseudocount = 1e-6. -/
def pseudocount : ℚ := 1 / 1000000

/-- Trace of the += updates of the counting loop of build_ppm: every
sequence other than the left-out one adds a unit count at cell
(seq[starting_pos + i], i) for each motif column i. -/
def ppmContribs (seqs : List (List Char × ℕ)) (j : ℕ) : List (Char × ℕ × ℚ) :=
  (List.range seqs.length).flatMap (fun sid =>
    if sid ≠ j then
      (List.range M).map (fun i =>
        ((seqs.getD sid ([], 0)).1.getD ((seqs.getD sid ([], 0)).2 + i) '?', i, (1 : ℚ)))
    else [])

/-- The residue counts accumulated by build_ppm before normalization. -/
def ppmCount (seqs : List (List Char × ℕ)) (j : ℕ) : Char → ℕ → ℚ :=
  accum (ppmContribs seqs j)

/-- total_at_each_pos of build_ppm, computed from the raw counts before the
pseudocount is added. -/
def total_at_each_pos (seqs : List (List Char × ℕ)) (j : ℕ) (i : ℕ) : ℚ :=
  (protein_alphabet.map (fun b => ppmCount seqs j b i)).sum

/-- build_ppm(sequences, left_out_sequence_index): accumulate unit counts,
then per cell add pseudocount / len(protein_alphabet) and divide by
(total_at_each_pos[i] + pseudocount). -/
def build_ppm (seqs : List (List Char × ℕ)) (j : ℕ) : Char → List ℚ :=
  fun b => (List.range M).map (fun i =>
    (ppmCount seqs j b i + pseudocount / (protein_alphabet.length : ℚ))
      / (total_at_each_pos seqs j i + pseudocount))

/-- Per-residue count over the non-motif regions seq[:start] and
seq[start + M:] of every sequence, as accumulated by
calculate_background_probabilities. -/
def bgFreq (seqs : List (List Char × ℕ)) (b : Char) : ℚ :=
  (seqs.map (fun p =>
    ((p.1.take p.2).count b : ℚ) + ((p.1.drop (p.2 + M)).count b : ℚ))).sum

/-- total_background_probs: the normalizing total of the background
frequencies, summed over the alphabet dictionary values. -/
def bgTotal (seqs : List (List Char × ℕ)) : ℚ :=
  (protein_alphabet.map (fun b => bgFreq seqs b)).sum

/-- The normalized background distribution of
calculate_background_probabilities. -/
def bgFun (seqs : List (List Char × ℕ)) : Char → ℚ :=
  fun b => bgFreq seqs b / bgTotal seqs

/-- calculate_background_probabilities(sequences, M): none exactly when the
normalizing total is zero (ZeroDivisionError in the source). -/
def calculate_background_probabilities (seqs : List (List Char × ℕ)) :
    Option (Char → ℚ) :=
  if bgTotal seqs ≠ 0 then some (bgFun seqs) else none

/-- The window left_out_sequence[i : i + M]. -/
def genWindow (seq : List Char) (i : ℕ) : List Char := (seq.drop i).take M

/-- The number of candidate weights the source allocates,
len(left_out_sequence) - M: one fewer than the number of valid window
offsets of the sequence. -/
def genLen (seq : List Char) : ℕ := ((seq.length : ℤ) - M).toNat

/-- The unnormalized weights of generate_distribution_for_left_out_sequence:
each starts at 1e-6 and multiplies matrix[base][j] / background[base] over
the window columns.  The first parameter is named PWM in the source, but
the main loop passes the PPM for it. -/
def genRaw (PWM : Char → List ℚ) (bg : Char → ℚ) (seq : List Char) : List ℚ :=
  (List.range (genLen seq)).map (fun i =>
    (genWindow seq i).enum.foldl
      (fun acc t => acc * ((PWM t.2).getD t.1 0 / bg t.2)) (1 / 1000000))

/-- generate_distribution_for_left_out_sequence(PWM, background, seq):
none exactly when Python raises ZeroDivisionError, that is when a window
symbol has background probability 0 or when a nonzero number of weights
sums to 0.  When len(seq) = M the weight list is empty: the normalizing
map never divides, so the function succeeds and returns the empty
distribution (the failure then happens downstream, in
np.random.choice). -/
def generate_distribution_for_left_out_sequence (PWM : Char → List ℚ)
    (bg : Char → ℚ) (seq : List Char) : Option (List ℚ) :=
  if (∀ i < genLen seq, ∀ b ∈ genWindow seq i, bg b ≠ 0)
      ∧ (genRaw PWM bg seq ≠ [] → (genRaw PWM bg seq).sum ≠ 0)
  then some ((genRaw PWM bg seq).map (fun x => x / (genRaw PWM bg seq).sum))
  else none

/-- ppm_to_pwm(ppm, background_probabilities):
pwm[base][i] = log2(ppm[base][i] / background[base]). -/
noncomputable def ppm_to_pwm (ppm : Char → List ℚ) (bg : Char → ℚ) :
    Char → List ℝ :=
  fun b => (List.range M).map (fun i =>
    Real.logb 2 (((ppm b).getD i 0 : ℝ) / (bg b : ℝ)))

/-- Python max over a non-empty list (junk value 0 on the empty list, which
never occurs in the source). -/
noncomputable def pyMax : List ℝ → ℝ
  | [] => 0
  | a :: l => l.foldl max a

/-- The per-column maximum max([PWM[base][i] for base in protein_alphabet])
used by the consensus and log-likelihood lines of the main loop. -/
noncomputable def colMaxPWM (pwm : Char → List ℝ) (i : ℕ) : ℝ :=
  pyMax (protein_alphabet.map (fun b => (pwm b).getD i 0))

/-- choose_left_out_sequence modelled on an explicit stream of randint
draws: the retry loop returns the first draw that is not in
previous_sequence_indexes; none if the stream is exhausted (the retry loop
would keep drawing forever). -/
def choose_left_out_sequence (draws : List ℕ) (previous : List ℕ) : Option ℕ :=
  match draws with
  | [] => none
  | d :: rest =>
      if d ∈ previous then choose_left_out_sequence rest previous else some d

/-- One iteration of the main loop, restricted to the state that hold-out
selection reads: the chosen-index trace and previous_sequence_indexes.
The loop body (lines 131-156 of the source) never appends to
previous_sequence_indexes, so the list is passed on unchanged. -/
def gibbsSelectionStep (st : List (Option ℕ) × List ℕ) (draws : List ℕ) :
    List (Option ℕ) × List ℕ :=
  (st.1 ++ [choose_left_out_sequence draws st.2], st.2)

/-- The trace of hold-out indexes chosen by the main loop, one entry per
iteration, starting from the initial empty previous_sequence_indexes. -/
def gibbsHoldOutTrace (drawss : List (List ℕ)) : List (Option ℕ) :=
  (drawss.foldl gibbsSelectionStep ([], [])).1

/-- The property asserted by claim C3 for the hold-out trace over n
sequences: an index may be chosen a second time only after every index
below n has already been chosen. -/
def roundDiscipline (n : ℕ) (tr : List ℕ) : Prop :=
  ∀ k2 < tr.length, ∀ k1 < k2,
    tr.getD k1 0 = tr.getD k2 0 → ∀ m < n, m ∈ tr.take k2

/-- Modelled from the words of claim C10: the count c of symbol b at motif
column i over the latent-alignment-selected windows of all sequences
except the held-out one. -/
def specGibbsCount (seqs : List (List Char × ℕ)) (j : ℕ) (b : Char) (i : ℕ) : ℚ :=
  ((List.range seqs.length).map (fun sid =>
    if sid ≠ j ∧ (seqs.getD sid ([], 0)).1.getD ((seqs.getD sid ([], 0)).2 + i) '?' = b
    then (1 : ℚ) else 0)).sum

/-- Modelled from the words of claim C10: the total count of column i. -/
def specGibbsColTotal (seqs : List (List Char × ℕ)) (j : ℕ) (i : ℕ) : ℚ :=
  (protein_alphabet.map (fun b => specGibbsCount seqs j b i)).sum

/-! ### Concrete inputs used by witnesses and counterexamples -/

/-- A matrix with an entry that is exactly zero. -/
def zeroEntryMatrix : Char → List ℚ := fun _ => [0]

/-- Singleton test corpus for the C10 witness. -/
def c10seqs : List (List Char × ℕ) := [(List.replicate 13 'A', 0)]

/-- One-sequence corpus for the C7 witness. -/
def c7seqs : List (List Char) := [['A']]

/-- Uniform matrix for the C7 witness. -/
def c7pfm : Char → List ℚ := fun _ => [1 / 4]

/-- Uniform background for the C7 witness. -/
def c7bg : Char → ℚ := fun _ => 1 / 4

/-- An all-ones matrix for evaluating the degenerate-length failure. -/
def onesMatrix : Char → List ℚ := fun _ => List.replicate 12 1

/-- An all-ones background for evaluating the degenerate-length failure. -/
def onesBg : Char → ℚ := fun _ => 1

/-- Corpus whose second sequence is shorter than the motif length 3. -/
def c2seqs : List (List Char) := [['A', 'T', 'G', 'C'], ['A', 'T']]

/-- A length-13 sequence over the single residue A. -/
def c4seq : List Char := List.replicate 13 'A'

/-- Two identical sequences of length 13 with motif offset 0: the witness
corpus for the candidate-distribution claim. -/
def c4seqs : List (List Char × ℕ) := [(c4seq, 0), (c4seq, 0)]

/-- Corpus for the C7 counterexample: the first sequence is shorter than
the motif length 2, the second has exactly one valid window. -/
def cexSeqs : List (List Char) := [['A'], ['A', 'T']]

/-- Uniform two-column matrix for the C7 counterexample. -/
def cexPfm : Char → List ℚ := fun _ => [1 / 4, 1 / 4]

/-- A well-formed PPM for the C5 counterexample: in every column, A holds
half the mass, C three tenths, and each of the 18 remaining residues
1/90. -/
def cPpm : Char → List ℚ := fun b =>
  List.replicate M (if b = 'A' then 1 / 2 else if b = 'C' then 3 / 10 else 1 / 90)

/-- A background for the C5 counterexample: A keeps probability 1/2 but C
is rare (1/10), so C has the best odds ratio while A stays the most
frequent symbol. -/
def cBg : Char → ℚ :=
  fun b => if b = 'A' then 1 / 2 else if b = 'C' then 1 / 10 else 1 / 45

/-! ### Claim C8 -/

/-- C8 (amended): motif_probability returns 1e-6 times the product over
columns of matrix[window[i]][i], and background_probability returns 1e-6
times the product of the background probabilities of the window's symbols;
the constant is a multiplicative seed, so it scales the product and does
not prevent the result from being zero. -/
theorem likelihood_is_seeded_product (site : List Char) (pfm : Char → List ℚ)
    (bg : Char → ℚ) :
    motif_probability site pfm
        = (1 / 1000000) * (site.enum.map (fun t => (pfm t.2).getD t.1 0)).prod
      ∧ background_probability site bg = (1 / 1000000) * (site.map bg).prod := by
  constructor
  · exact foldl_mul_map site.enum (fun t => (pfm t.2).getD t.1 0) (1 / 1000000)
  · exact foldl_mul_map site bg (1 / 1000000)

/-- C8 counterexample: with a matrix entry that is exactly zero the
likelihood is zero although the accumulator was seeded with the nonzero
constant 1e-6 — the seeding does not avoid a zero product. -/
theorem seeding_does_not_avoid_zero_product :
    (zeroEntryMatrix 'A').getD 0 0 = 0
      ∧ motif_probability ['A'] zeroEntryMatrix = 0
      ∧ (1 / 1000000 : ℚ) ≠ 0 := by
  refine ⟨rfl, ?_, by norm_num⟩
  simp [motif_probability, zeroEntryMatrix, List.enum]

/-! ### Claim C10 -/

/-- The counts computed by the accumulation loop of build_ppm agree with
the indicator-sum reading of claim C10. -/
theorem ppmCount_eq_specGibbsCount (seqs : List (List Char × ℕ)) (j : ℕ)
    (b : Char) (i : ℕ) (hi : i < M) :
    ppmCount seqs j b i = specGibbsCount seqs j b i := by
  unfold ppmCount specGibbsCount
  rw [accum_apply]
  unfold ppmContribs
  rw [sum_flatMap]
  apply congrArg List.sum
  apply List.map_congr_left
  intro sid _
  by_cases hs : sid ≠ j
  · rw [if_pos hs, List.map_map]
    have hpt : ((List.range M).map
        ((fun t => if b = t.1 ∧ i = t.2.1 then t.2.2 else 0) ∘
          (fun i' => ((seqs.getD sid ([], 0)).1.getD ((seqs.getD sid ([], 0)).2 + i') '?',
            i', (1 : ℚ)))))
        = ((List.range M).map (fun i' => if i = i'
            then (if b = (seqs.getD sid ([], 0)).1.getD ((seqs.getD sid ([], 0)).2 + i) '?'
              then (1 : ℚ) else 0)
            else 0)) := by
      apply List.map_congr_left
      intro i' _
      by_cases h : i = i'
      · subst h
        by_cases hb : b = (seqs.getD sid ([], 0)).1.getD ((seqs.getD sid ([], 0)).2 + i) '?' <;>
          simp [hb]
      · simp [h]
    rw [hpt, sum_range_ite, if_pos hi]
    by_cases hb : b = (seqs.getD sid ([], 0)).1.getD ((seqs.getD sid ([], 0)).2 + i) '?'
    · rw [if_pos hb, if_pos ⟨hs, hb.symm⟩]
    · rw [if_neg hb, if_neg (fun hcon => hb hcon.2.symm)]
  · rw [if_neg hs]
    simp [hs]

/-- C10: each build_ppm cell equals (c + pseudocount / k) divided by
(column_total + pseudocount), where k = 20 is the alphabet size, c the
count of that symbol at that column over the latent-alignment-selected
windows of all sequences except the held-out one, and column_total the
total count in that column. -/
theorem build_ppm_cell_formula (seqs : List (List Char × ℕ)) (j : ℕ)
    (b : Char) (i : ℕ) (hi : i < M) :
    (build_ppm seqs j b).getD i 0
      = (specGibbsCount seqs j b i + pseudocount / 20)
          / (specGibbsColTotal seqs j i + pseudocount) := by
  unfold build_ppm
  rw [getD_map_range _ _ _ _ hi]
  have h20 : (protein_alphabet.length : ℚ) = 20 := by norm_num [protein_alphabet]
  rw [h20, ppmCount_eq_specGibbsCount seqs j b i hi]
  have htot : total_at_each_pos seqs j i = specGibbsColTotal seqs j i := by
    unfold total_at_each_pos specGibbsColTotal
    apply congrArg List.sum
    apply List.map_congr_left
    intro b' _
    exact ppmCount_eq_specGibbsCount seqs j b' i hi
  rw [htot]

/-- Witness for C10 at a concrete corpus, hold-out index and cell. -/
theorem build_ppm_cell_formula_witness :
    (0 : ℕ) < M
      ∧ (build_ppm c10seqs 0 'A').getD 0 0
          = (specGibbsCount c10seqs 0 'A' 0 + pseudocount / 20)
              / (specGibbsColTotal c10seqs 0 0 + pseudocount) :=
  ⟨by norm_num [M], build_ppm_cell_formula c10seqs 0 'A' 0 (by norm_num [M])⟩

/-! ### Claim C7 -/

/-- A normalized responsibility row sums to exactly 1 whenever its
normalizing total is nonzero. -/
theorem exRow_sum_one (seq : List Char) (pfm : Char → List ℚ)
    (bg : Char → ℚ) (L : ℕ) (h : (exRow0 seq pfm bg L).sum ≠ 0) :
    (exRow seq pfm bg L).sum = 1 := by
  unfold exRow
  rw [sum_map_div, div_self h]

/-- C7 (amended): every responsibility row of a sequence with at least one
valid window sums to 1 within tolerance 1e-9; a sequence shorter than the
motif length yields an empty row, which the expectation step returns
successfully and which sums to 0. -/
theorem expectation_rows_sum_to_one (seqs : List (List Char))
    (pfm : Char → List ℚ) (bg : Char → ℚ) (L : ℕ) (w : List (List ℚ))
    (h : calculate_expectation seqs pfm bg L = some w) :
    ∀ row ∈ w, (row = [] → row.sum = 0)
      ∧ (row ≠ [] → |row.sum - 1| ≤ 1 / 1000000000) := by
  unfold calculate_expectation at h
  split_ifs at h with hc
  · have hw : w = seqs.map (fun seq => exRow seq pfm bg L) := (Option.some.inj h).symm
    subst hw
    intro row hrow
    rcases List.mem_map.mp hrow with ⟨seq, hseq, rfl⟩
    constructor
    · intro he
      rw [he]
      rfl
    · intro hne
      have hrow0_ne : exRow0 seq pfm bg L ≠ [] := by
        intro he
        exact hne (by unfold exRow; rw [he]; rfl)
      have hsites_ne : sitesOf seq L ≠ [] := by
        intro he
        exact hrow0_ne (by unfold exRow0; rw [he]; rfl)
      rw [exRow_sum_one seq pfm bg L (hc seq hseq hsites_ne).2]
      norm_num

theorem cexmp : motif_probability ['A', 'T'] cexPfm = 1 / 16000000 := by
  norm_num [motif_probability, cexPfm, List.enum, List.enumFrom]

theorem cexbp : background_probability ['A', 'T'] c7bg = 1 / 16000000 := by
  norm_num [background_probability, c7bg]

theorem cexsites : sitesOf ['A', 'T'] 2 = [['A', 'T']] := by decide

theorem cexrow0 : exRow0 ['A', 'T'] cexPfm c7bg 2 = [1 / 2] := by
  rw [exRow0, cexsites, List.map_cons, List.map_nil, cexmp, cexbp]
  norm_num

theorem cexrow : exRow ['A', 'T'] cexPfm c7bg 2 = [1] := by
  unfold exRow
  rw [cexrow0]
  norm_num

/-- C7 counterexample: on a corpus whose first sequence is shorter than
the motif length — reachable, since the code has no InvalidMotifLength
check — the expectation step succeeds and returns an empty responsibility
row for that sequence, and that row sums to 0, not 1. -/
theorem expectation_empty_row :
    calculate_expectation cexSeqs cexPfm c7bg 2 = some [[], [1]]
      ∧ ¬ (|(([] : List ℚ)).sum - 1| ≤ 1 / 1000000000) := by
  have cexrowA : exRow ['A'] cexPfm c7bg 2 = [] := rfl
  refine ⟨?_, by norm_num⟩
  have hcond : ∀ seq ∈ cexSeqs, sitesOf seq 2 ≠ [] →
      (∀ site ∈ sitesOf seq 2,
        motif_probability site cexPfm + background_probability site c7bg ≠ 0)
      ∧ (exRow0 seq cexPfm c7bg 2).sum ≠ 0 := by
    intro seq hseq
    have hs : seq = ['A'] ∨ seq = ['A', 'T'] := by simpa [cexSeqs] using hseq
    rcases hs with hs | hs
    · subst hs
      intro hne
      exact absurd rfl hne
    · subst hs
      intro _
      refine ⟨?_, ?_⟩
      · intro site hsite
        rw [cexsites] at hsite
        have hs2 : site = ['A', 'T'] := by simpa using hsite
        subst hs2
        rw [cexmp, cexbp]
        norm_num
      · rw [cexrow0]
        norm_num
  unfold calculate_expectation
  rw [if_pos hcond]
  simp [cexSeqs, cexrow, cexrowA]

theorem c7sites : sitesOf ['A'] 1 = [['A']] := by decide

theorem c7mp : motif_probability ['A'] c7pfm = 1 / 4000000 := by
  norm_num [motif_probability, c7pfm, List.enum, List.enumFrom]

theorem c7bp : background_probability ['A'] c7bg = 1 / 4000000 := by
  norm_num [background_probability, c7bg]

theorem c7row0 : exRow0 ['A'] c7pfm c7bg 1 = [1 / 2] := by
  rw [exRow0, c7sites, List.map_cons, List.map_nil, c7mp, c7bp]
  norm_num

/-- Evaluation of the expectation step on the one-sequence witness
corpus. -/
theorem c7eval : calculate_expectation c7seqs c7pfm c7bg 1 = some [[1]] := by
  have hcond : ∀ seq ∈ c7seqs, sitesOf seq 1 ≠ [] →
      (∀ site ∈ sitesOf seq 1,
        motif_probability site c7pfm + background_probability site c7bg ≠ 0)
      ∧ (exRow0 seq c7pfm c7bg 1).sum ≠ 0 := by
    intro seq hseq _
    have hs : seq = ['A'] := by simpa [c7seqs] using hseq
    subst hs
    refine ⟨?_, ?_⟩
    · intro site hsite
      rw [c7sites] at hsite
      have hs2 : site = ['A'] := by simpa using hsite
      subst hs2
      rw [c7mp, c7bp]
      norm_num
    · rw [c7row0]
      norm_num
  unfold calculate_expectation
  rw [if_pos hcond]
  have hrow : exRow ['A'] c7pfm c7bg 1 = [1] := by
    unfold exRow
    rw [c7row0]
    norm_num
  simp [c7seqs, hrow]

/-- Witness for C7 at a concrete corpus, matrix and background. -/
theorem expectation_rows_sum_to_one_witness :
    calculate_expectation c7seqs c7pfm c7bg 1 = some [[1]]
      ∧ ([(1 : ℚ)] : List ℚ) ≠ []
      ∧ |([(1 : ℚ)]).sum - 1| ≤ 1 / 1000000000 :=
  ⟨c7eval, by simp,
    ((expectation_rows_sum_to_one c7seqs c7pfm c7bg 1 [[1]] c7eval [(1 : ℚ)]
      (by simp)).2) (by simp)⟩

/-! ### Claim C3 -/

/-- With the empty exclusion list the retry loop of
choose_left_out_sequence accepts the very first draw. -/
theorem choose_left_out_empty (draws : List ℕ) :
    choose_left_out_sequence draws [] = draws.head? := by
  cases draws with
  | nil => rfl
  | cons d rest => simp [choose_left_out_sequence]

theorem gibbs_trace_foldl (drawss : List (List ℕ)) (acc : List (Option ℕ)) :
    (drawss.foldl gibbsSelectionStep (acc, [])).1
      = acc ++ drawss.map (fun draws => choose_left_out_sequence draws []) := by
  induction drawss generalizing acc with
  | nil => simp
  | cons d rest ih =>
      simp only [List.foldl_cons, List.map_cons]
      rw [show gibbsSelectionStep (acc, []) d
        = (acc ++ [choose_left_out_sequence d []], []) from rfl]
      rw [ih]
      simp

/-- C3 (amended): in every execution of the main loop the held-out index of
each iteration is simply the first randint draw of that iteration:
previous_sequence_indexes stays empty forever (the loop never appends to
it), so no exclusion ever applies and no round reset exists. -/
theorem holdout_trace_is_first_draws (drawss : List (List ℕ)) :
    gibbsHoldOutTrace drawss = drawss.map List.head? := by
  unfold gibbsHoldOutTrace
  rw [gibbs_trace_foldl drawss []]
  simp [choose_left_out_empty]

/-- C3 counterexample: with two sequences and the in-range draw stream
0, 0 the main loop holds sequence 0 out twice before sequence 1 has ever
been held out, violating the claimed round discipline. -/
theorem holdout_repeats_before_round :
    gibbsHoldOutTrace [[0], [0]] = [some 0, some 0]
      ∧ ¬ roundDiscipline 2 [0, 0] := by
  refine ⟨rfl, ?_⟩
  intro h
  have h1 := h 1 (by norm_num) 0 (by norm_num) rfl 1 (by norm_num)
  simp at h1

/-! ### Claim C1 -/

/-- C1 (code evaluated at the failing input): for a held-out sequence whose
length equals the motif length M = 12 the source allocates
len - M = 0 candidate weights — offset 0, the only valid offset, receives
no weight — and returns the empty distribution; the subsequent
np.random.choice(0, 1, p=[]) call then fails, instead of the claimed
single-point distribution at offset 0 being sampled. -/
theorem distribution_empty_when_len_eq_M :
    genRaw onesMatrix onesBg (List.replicate 12 'A') = []
      ∧ generate_distribution_for_left_out_sequence onesMatrix onesBg
          (List.replicate 12 'A') = some [] := by
  refine ⟨rfl, ?_⟩
  unfold generate_distribution_for_left_out_sequence
  have hg : (∀ i < genLen (List.replicate 12 'A'),
        ∀ b ∈ genWindow (List.replicate 12 'A') i, onesBg b ≠ 0)
      ∧ (genRaw onesMatrix onesBg (List.replicate 12 'A') ≠ [] →
          (genRaw onesMatrix onesBg (List.replicate 12 'A')).sum ≠ 0) := by
    constructor
    · intro i hi
      have h0 : genLen (List.replicate 12 'A') = 0 := by decide
      exact (Nat.not_lt_zero i (h0 ▸ hi)).elim
    · intro hne
      exact absurd rfl hne
  rw [if_pos hg]
  rfl

/-! ### Claim C2 -/

theorem c2weight : emWeight c2seqs 3 = 1 / 2 := by
  norm_num [emWeight, emWeightDen, c2seqs]

/-- C2 (code evaluated at the failing input): motif length 3 exceeds the
length of the second sequence, yet initialization silently returns a
matrix — no InvalidMotifLength check exists anywhere in the source (for a
motif length exceeding len(sequences[0]) by exactly one it would raise
ZeroDivisionError instead). -/
theorem no_invalid_motif_length_check :
    (['A', 'T'] : List Char).length < 3
      ∧ (build_initial_pfm c2seqs 3).isSome = true := by
  refine ⟨by norm_num, ?_⟩
  have hc : initContribs c2seqs 3
      = [('A', 0, emWeight c2seqs 3), ('T', 1, emWeight c2seqs 3),
         ('G', 2, emWeight c2seqs 3), ('T', 0, emWeight c2seqs 3),
         ('G', 1, emWeight c2seqs 3), ('C', 2, emWeight c2seqs 3)] := by
    rfl
  have hcol : ∀ i < 3, initColTotal c2seqs 3 i ≠ 0 := by
    intro i hi
    interval_cases i <;>
      simp [initColTotal, initPfm0, accum_apply, hc, dnaAlphabet, c2weight]
  unfold build_initial_pfm
  rw [if_pos ⟨by simp [c2seqs], by norm_num [emWeightDen, c2seqs], hcol,
    by norm_num [totalBases, c2seqs]⟩]
  rfl

/-! ### Claim C4 -/

theorem accum_nonneg (l : List (Char × ℕ × ℚ)) (h : ∀ t ∈ l, 0 ≤ t.2.2)
    (b : Char) (i : ℕ) : 0 ≤ accum l b i := by
  rw [accum_apply]
  apply List.sum_nonneg
  intro x hx
  rcases List.mem_map.mp hx with ⟨t, ht, rfl⟩
  by_cases hc : b = t.1 ∧ i = t.2.1
  · rw [if_pos hc]; exact h t ht
  · rw [if_neg hc]

theorem ppmContribs_weight_one (seqs : List (List Char × ℕ)) (j : ℕ) :
    ∀ t ∈ ppmContribs seqs j, t.2.2 = 1 := by
  intro t ht
  unfold ppmContribs at ht
  rcases List.mem_flatMap.mp ht with ⟨sid, _, hmem⟩
  by_cases hs : sid ≠ j
  · rw [if_pos hs] at hmem
    rcases List.mem_map.mp hmem with ⟨i, _, rfl⟩
    rfl
  · rw [if_neg hs] at hmem
    cases hmem

theorem ppmCount_nonneg (seqs : List (List Char × ℕ)) (j : ℕ) (b : Char)
    (i : ℕ) : 0 ≤ ppmCount seqs j b i := by
  apply accum_nonneg
  intro t ht
  rw [ppmContribs_weight_one seqs j t ht]
  norm_num

theorem total_at_each_pos_nonneg (seqs : List (List Char × ℕ)) (j i : ℕ) :
    0 ≤ total_at_each_pos seqs j i := by
  apply List.sum_nonneg
  intro x hx
  rcases List.mem_map.mp hx with ⟨b, _, rfl⟩
  exact ppmCount_nonneg seqs j b i

theorem build_ppm_denom_pos (seqs : List (List Char × ℕ)) (j i : ℕ) :
    0 < total_at_each_pos seqs j i + pseudocount := by
  have h1 := total_at_each_pos_nonneg seqs j i
  have h2 : (0 : ℚ) < pseudocount := by norm_num [pseudocount]
  linarith

theorem build_ppm_entry_pos (seqs : List (List Char × ℕ)) (j : ℕ) (b : Char)
    (i : ℕ) (hi : i < M) : 0 < (build_ppm seqs j b).getD i 0 := by
  unfold build_ppm
  rw [getD_map_range _ _ _ _ hi]
  apply div_pos _ (build_ppm_denom_pos seqs j i)
  have h1 := ppmCount_nonneg seqs j b i
  have h2 : (0 : ℚ) < pseudocount / (protein_alphabet.length : ℚ) := by
    norm_num [pseudocount, protein_alphabet]
  linarith

theorem build_ppm_entry_nonneg (seqs : List (List Char × ℕ)) (j : ℕ)
    (b : Char) (i : ℕ) : 0 ≤ (build_ppm seqs j b).getD i 0 := by
  by_cases hi : i < M
  · exact (build_ppm_entry_pos seqs j b i hi).le
  · unfold build_ppm
    rw [List.getD_eq_default]
    simp only [List.length_map, List.length_range]
    omega

theorem bgFreq_nonneg (seqs : List (List Char × ℕ)) (b : Char) :
    0 ≤ bgFreq seqs b := by
  apply List.sum_nonneg
  intro x hx
  rcases List.mem_map.mp hx with ⟨p, _, rfl⟩
  positivity

theorem bgFun_nonneg (seqs : List (List Char × ℕ)) (b : Char) :
    0 ≤ bgFun seqs b := by
  have htot : 0 ≤ bgTotal seqs := by
    apply List.sum_nonneg
    intro x hx
    rcases List.mem_map.mp hx with ⟨b', _, rfl⟩
    exact bgFreq_nonneg seqs b'
  exact div_nonneg (bgFreq_nonneg seqs b) htot

theorem genRaw_nonneg (seqs : List (List Char × ℕ)) (j : ℕ) (seq : List Char) :
    ∀ x ∈ genRaw (build_ppm seqs j) (bgFun seqs) seq, 0 ≤ x := by
  intro x hx
  rcases List.mem_map.mp hx with ⟨i, _, rfl⟩
  rw [foldl_mul_map]
  apply mul_nonneg (by norm_num)
  apply List.prod_nonneg
  intro a ha
  rcases List.mem_map.mp ha with ⟨t, _, rfl⟩
  exact div_nonneg (build_ppm_entry_nonneg seqs j t.2 t.1)
    (bgFun_nonneg seqs t.2)

/-- C4 (amended): in the sampling pipeline of the main loop — the matrix
passed for the PWM parameter is the leave-one-out PPM and the background
is the normalized non-motif frequency map — every candidate weight is
non-negative, and whenever the distribution is non-empty (held-out
sequence longer than M) the normalized weights sum to exactly 1, forming
a valid categorical distribution; for a held-out sequence of length
exactly M the returned distribution is empty, with weight sum 0. -/
theorem gibbs_candidate_distribution_valid (seqs : List (List Char × ℕ))
    (j : ℕ) (seq : List Char) (d : List ℚ)
    (h : generate_distribution_for_left_out_sequence (build_ppm seqs j)
      (bgFun seqs) seq = some d) :
    (∀ x ∈ d, 0 ≤ x) ∧ (d ≠ [] → d.sum = 1) := by
  unfold generate_distribution_for_left_out_sequence at h
  split_ifs at h with hc
  have hd : d = (genRaw (build_ppm seqs j) (bgFun seqs) seq).map
      (fun x => x / (genRaw (build_ppm seqs j) (bgFun seqs) seq).sum) :=
    (Option.some.inj h).symm
  have hraw := genRaw_nonneg seqs j seq
  have hSnn : 0 ≤ (genRaw (build_ppm seqs j) (bgFun seqs) seq).sum :=
    List.sum_nonneg hraw
  subst hd
  constructor
  · intro x hx
    rcases List.mem_map.mp hx with ⟨y, hy, rfl⟩
    exact div_nonneg (hraw y hy) hSnn
  · intro hne
    have hraw_ne : genRaw (build_ppm seqs j) (bgFun seqs) seq ≠ [] := by
      intro he
      exact hne (by rw [he]; rfl)
    rw [sum_map_div, div_self (hc.2 hraw_ne)]

/-- C4 counterexample: a held-out sequence of length exactly M = 12 is
reachable (the initialization offsets randint(0, len - M) allow it), and
on it the sampling pipeline returns the empty candidate distribution,
whose weights sum to 0 and not 1 — not a valid categorical distribution
for the sampling primitive, which rejects it. -/
theorem candidate_distribution_empty :
    generate_distribution_for_left_out_sequence (build_ppm c4seqs 0)
        (bgFun c4seqs) (List.replicate 12 'A') = some []
      ∧ (([] : List ℚ)).sum ≠ 1 := by
  refine ⟨?_, by norm_num⟩
  unfold generate_distribution_for_left_out_sequence
  have hg : (∀ i < genLen (List.replicate 12 'A'),
        ∀ b ∈ genWindow (List.replicate 12 'A') i, bgFun c4seqs b ≠ 0)
      ∧ (genRaw (build_ppm c4seqs 0) (bgFun c4seqs) (List.replicate 12 'A') ≠ [] →
          (genRaw (build_ppm c4seqs 0) (bgFun c4seqs) (List.replicate 12 'A')).sum ≠ 0) := by
    constructor
    · intro i hi
      have h0 : genLen (List.replicate 12 'A') = 0 := by decide
      exact (Nat.not_lt_zero i (h0 ▸ hi)).elim
    · intro hne
      exact absurd rfl hne
  rw [if_pos hg]
  rfl

theorem c4bgFreq : ∀ b ∈ protein_alphabet,
    bgFreq c4seqs b = (if b = 'A' then 2 else 0) := by
  have hcnt : ∀ b ∈ protein_alphabet,
      (c4seq.take 0).count b = 0
        ∧ (c4seq.drop (0 + M)).count b = (if b = 'A' then 1 else 0) := by decide
  intro b hb
  obtain ⟨e1, e2⟩ := hcnt b hb
  rw [Nat.zero_add] at e2
  by_cases hA : b = 'A'
  · subst hA
    rw [if_pos rfl] at e2
    norm_num [bgFreq, c4seqs, e1, e2]
  · rw [if_neg hA] at e2
    simp [bgFreq, c4seqs, e1, e2, hA]

theorem c4bgTotal : bgTotal c4seqs = 2 := by
  unfold bgTotal
  rw [List.map_congr_left c4bgFreq]
  simp +decide [protein_alphabet]

theorem c4bgA : bgFun c4seqs 'A' = 1 := by
  unfold bgFun
  rw [c4bgFreq 'A' (by decide), c4bgTotal]
  norm_num

theorem c4window : genWindow c4seq 0 = List.replicate 12 'A' := by decide

theorem c4raw : genRaw (build_ppm c4seqs 0) (bgFun c4seqs) c4seq
    = [(genWindow c4seq 0).enum.foldl
        (fun acc t => acc * ((build_ppm c4seqs 0 t.2).getD t.1 0 / bgFun c4seqs t.2))
        (1 / 1000000)] := by
  unfold genRaw
  rw [show genLen c4seq = 1 from by decide]
  rfl

theorem c4rawPos : 0 < (genWindow c4seq 0).enum.foldl
    (fun acc t => acc * ((build_ppm c4seqs 0 t.2).getD t.1 0 / bgFun c4seqs t.2))
    (1 / 1000000) := by
  rw [foldl_mul_map]
  apply mul_pos (by norm_num)
  apply List.prod_pos
  intro a ha
  rcases List.mem_map.mp ha with ⟨t, ht, rfl⟩
  have hshape : ∀ t ∈ (genWindow c4seq 0).enum, t.1 < M ∧ t.2 = 'A' := by decide
  obtain ⟨h1, h2⟩ := hshape t ht
  rw [h2, c4bgA, div_one]
  exact build_ppm_entry_pos c4seqs 0 'A' t.1 h1

theorem c4dist : generate_distribution_for_left_out_sequence (build_ppm c4seqs 0)
    (bgFun c4seqs) c4seq = some [1] := by
  unfold generate_distribution_for_left_out_sequence
  rw [if_pos ?hc]
  case hc =>
    constructor
    · intro i hi b hb
      have hi0 : i = 0 := by
        have : genLen c4seq = 1 := by decide
        omega
      subst hi0
      rw [c4window] at hb
      rw [List.eq_of_mem_replicate hb, c4bgA]
      norm_num
    · intro _
      rw [c4raw]
      simpa using c4rawPos.ne'
  rw [c4raw]
  simp only [List.map_cons, List.map_nil, List.sum_cons, List.sum_nil, add_zero]
  rw [div_self c4rawPos.ne']

/-- Witness for C4 at a concrete corpus, hold-out index and held-out
sequence. -/
theorem gibbs_candidate_distribution_valid_witness :
    generate_distribution_for_left_out_sequence (build_ppm c4seqs 0)
        (bgFun c4seqs) c4seq = some [1]
      ∧ (∀ x ∈ [(1 : ℚ)], 0 ≤ x) ∧ ([(1 : ℚ)]).sum = 1 :=
  ⟨c4dist, (gibbs_candidate_distribution_valid c4seqs 0 c4seq [1] c4dist).1,
    (gibbs_candidate_distribution_valid c4seqs 0 c4seq [1] c4dist).2 (by simp)⟩

/-! ### Claim C6 -/

theorem sum_map_const {α : Type} (l : List α) (c : ℚ) :
    (l.map (fun _ => c)).sum = l.length * c := by
  induction l with
  | nil => simp
  | cons a t ih =>
      rw [List.map_cons, List.sum_cons, ih, List.length_cons]
      push_cast
      ring

theorem sum_range_const (n : ℕ) (w : ℚ) :
    ((List.range n).map (fun _ => w)).sum = n * w := by
  rw [sum_map_const, List.length_range]

/-- Summing an accumulated matrix column over an alphabet that contains
every updated symbol exactly once gives the total weight of the updates
that hit that column. -/
theorem sum_accum_over_alph (alph : List Char) (hnd : alph.Nodup)
    (l : List (Char × ℕ × ℚ)) (hmem : ∀ t ∈ l, t.1 ∈ alph) (i : ℕ) :
    (alph.map (fun b => accum l b i)).sum
      = (l.map (fun t => if i = t.2.1 then t.2.2 else 0)).sum := by
  have h1 : alph.map (fun b => accum l b i)
      = alph.map (fun b =>
          (l.map (fun t => if b = t.1 ∧ i = t.2.1 then t.2.2 else 0)).sum) :=
    List.map_congr_left (fun b _ => accum_apply l b i)
  rw [h1, sum_map_comm]
  apply congrArg List.sum
  apply List.map_congr_left
  intro t ht
  by_cases hcol : i = t.2.1
  · have h2 : alph.map (fun b => if b = t.1 ∧ i = t.2.1 then t.2.2 else 0)
        = alph.map (fun b => if b = t.1 then t.2.2 else 0) := by
      apply List.map_congr_left
      intro b _
      by_cases hb : b = t.1 <;> simp [hb, hcol]
    rw [h2, sum_ind_of_mem alph hnd t.1 (hmem t ht) t.2.2, if_pos hcol]
  · rw [if_neg hcol]
    apply List.sum_eq_zero
    intro x hx
    rcases List.mem_map.mp hx with ⟨b, _, rfl⟩
    simp [hcol]

theorem initContribs_chars (seqs : List (List Char)) (L : ℕ)
    (hgood : ∀ s ∈ seqs, L ≤ s.length ∧ ∀ c ∈ s, c ∈ dnaAlphabet) :
    ∀ t ∈ initContribs seqs L, t.1 ∈ dnaAlphabet := by
  intro t ht
  unfold initContribs at ht
  rcases List.mem_flatMap.mp ht with ⟨seq, hseq, ht2⟩
  rcases List.mem_flatMap.mp ht2 with ⟨start, hstart, ht3⟩
  rcases List.mem_map.mp ht3 with ⟨i, hi, rfl⟩
  have hin : start + i < seq.length :=
    window_index_lt _ L _ _ (List.mem_range.mp hstart) (List.mem_range.mp hi)
  exact (hgood seq hseq).2 _ (getD_mem seq _ '?' hin)

theorem initColTotal_eval (seqs : List (List Char)) (L i : ℕ) (hi : i < L)
    (hgood : ∀ s ∈ seqs, L ≤ s.length ∧ ∀ c ∈ s, c ∈ dnaAlphabet) :
    initColTotal seqs L i
      = (seqs.map (fun seq =>
          (numWindows seq.length L : ℚ) * emWeight seqs L)).sum := by
  unfold initColTotal initPfm0
  rw [sum_accum_over_alph dnaAlphabet (by decide) _ (initContribs_chars seqs L hgood) i]
  unfold initContribs
  rw [sum_flatMap]
  apply congrArg List.sum
  apply List.map_congr_left
  intro seq _
  rw [sum_flatMap]
  have h1 : ∀ start ∈ List.range (numWindows seq.length L),
      (((List.range L).map
          (fun i' => (seq.getD (start + i') '?', i', emWeight seqs L))).map
        (fun t => if i = t.2.1 then t.2.2 else 0)).sum = emWeight seqs L := by
    intro start _
    rw [List.map_map]
    rw [show ((fun t : Char × ℕ × ℚ => if i = t.2.1 then t.2.2 else 0) ∘
        (fun i' => (seq.getD (start + i') '?', i', emWeight seqs L)))
      = (fun i' => if i = i' then emWeight seqs L else 0) from rfl]
    rw [sum_range_ite, if_pos hi]
  rw [List.map_congr_left h1, sum_range_const]

theorem numWindows_pos (len L : ℕ) (h : L ≤ len) : 0 < numWindows len L := by
  unfold numWindows
  omega

theorem emWeight_pos (seqs : List (List Char)) (L : ℕ)
    (hlen : L ≤ (seqs.headD []).length) : 0 < emWeight seqs L := by
  unfold emWeight emWeightDen
  apply div_pos one_pos
  have h : (L : ℚ) ≤ ((seqs.headD []).length : ℚ) := by exact_mod_cast hlen
  linarith

theorem initColTotal_pos (seqs : List (List Char)) (L i : ℕ)
    (hne : seqs ≠ [])
    (hgood : ∀ s ∈ seqs, L ≤ s.length ∧ ∀ c ∈ s, c ∈ dnaAlphabet)
    (hi : i < L) : 0 < initColTotal seqs L i := by
  rw [initColTotal_eval seqs L i hi hgood]
  rcases seqs with _ | ⟨s0, rest⟩
  · exact absurd rfl hne
  rw [List.map_cons, List.sum_cons]
  have hw : 0 < emWeight (s0 :: rest) L :=
    emWeight_pos (s0 :: rest) L (hgood s0 (by simp)).1
  have h0 : 0 < (numWindows s0.length L : ℚ) * emWeight (s0 :: rest) L := by
    apply mul_pos _ hw
    exact_mod_cast numWindows_pos s0.length L (hgood s0 (by simp)).1
  have hrest : 0 ≤ (rest.map (fun seq =>
      (numWindows seq.length L : ℚ) * emWeight (s0 :: rest) L)).sum := by
    apply List.sum_nonneg
    intro x hx
    rcases List.mem_map.mp hx with ⟨seq, _, rfl⟩
    exact mul_nonneg (Nat.cast_nonneg _) hw.le
  linarith

theorem em_init_colsum (seqs : List (List Char)) (L : ℕ)
    (hne : seqs ≠ [])
    (hgood : ∀ s ∈ seqs, L ≤ s.length ∧ ∀ c ∈ s, c ∈ dnaAlphabet)
    (i : ℕ) (hi : i < L) :
    (dnaAlphabet.map (fun b => (initPfm seqs L b).getD i 0)).sum = 1 := by
  have hT := initColTotal_pos seqs L i hne hgood hi
  have h1 : dnaAlphabet.map (fun b => (initPfm seqs L b).getD i 0)
      = (dnaAlphabet.map (fun b => initPfm0 seqs L b i)).map
          (fun x => x / initColTotal seqs L i) := by
    rw [List.map_map]
    apply List.map_congr_left
    intro b _
    show (initPfm seqs L b).getD i 0 = initPfm0 seqs L b i / initColTotal seqs L i
    unfold initPfm
    rw [getD_map_range _ _ _ _ hi]
  rw [h1, sum_map_div]
  exact div_self hT.ne'

theorem maxContribs_chars (seqs : List (List Char)) (w : List (List ℚ)) (L : ℕ)
    (hchars : ∀ s ∈ seqs, ∀ c ∈ s, c ∈ dnaAlphabet) :
    ∀ t ∈ maxContribs seqs w L, t.1 ∈ dnaAlphabet := by
  intro t ht
  unfold maxContribs at ht
  rcases List.mem_flatMap.mp ht with ⟨sid, hsid, ht2⟩
  rcases List.mem_flatMap.mp ht2 with ⟨start, hstart, ht3⟩
  rcases List.mem_map.mp ht3 with ⟨i, hi, rfl⟩
  have hseq : seqs.getD sid [] ∈ seqs := getD_mem seqs sid [] (List.mem_range.mp hsid)
  have hin : start + i < (seqs.getD sid []).length :=
    window_index_lt _ L _ _ (List.mem_range.mp hstart) (List.mem_range.mp hi)
  exact hchars _ hseq _ (getD_mem _ _ '?' hin)

theorem exRow_length (seq : List Char) (pfm : Char → List ℚ) (bg : Char → ℚ)
    (L : ℕ) : (exRow seq pfm bg L).length = numWindows seq.length L := by
  simp [exRow, exRow0, sitesOf]

theorem sum_range_getD (l : List ℚ) :
    ((List.range l.length).map (fun k => l.getD k 0)).sum = l.sum := by
  induction l with
  | nil => simp
  | cons a t ih =>
      rw [List.length_cons, List.range_succ_eq_map, List.map_cons, List.map_map]
      have h1 : (List.range t.length).map
          ((fun k => (a :: t).getD k 0) ∘ (fun i => i + 1))
          = (List.range t.length).map (fun k => t.getD k 0) := by
        apply List.map_congr_left
        intro k _
        rfl
      rw [h1, List.sum_cons, ih]
      rfl

theorem getD_map_of_lt {α β : Type} (f : α → β) (l : List α) (i : ℕ)
    (h : i < l.length) (d : β) (d' : α) :
    (l.map f).getD i d = f (l.getD i d') := by
  rw [List.getD_eq_getElem _ _ (by simpa using h), List.getElem_map,
    List.getD_eq_getElem _ _ h]

theorem em_max_colsum (seqs : List (List Char)) (pfm : Char → List ℚ)
    (bg : Char → ℚ) (L : ℕ) (w : List (List ℚ))
    (h : calculate_expectation seqs pfm bg L = some w) (hne : seqs ≠ [])
    (hgood : ∀ s ∈ seqs, L ≤ s.length ∧ ∀ c ∈ s, c ∈ dnaAlphabet)
    (i : ℕ) (hi : i < L) :
    (dnaAlphabet.map (fun b => (maximize_pfm seqs w L b).getD i 0)).sum = 1 := by
  have hchars : ∀ s ∈ seqs, ∀ c ∈ s, c ∈ dnaAlphabet :=
    fun s hs => (hgood s hs).2
  unfold calculate_expectation at h
  split_ifs at h with hc
  have hw : w = seqs.map (fun seq => exRow seq pfm bg L) := (Option.some.inj h).symm
  subst hw
  have h1 : dnaAlphabet.map (fun b =>
        (maximize_pfm seqs (seqs.map (fun seq => exRow seq pfm bg L)) L b).getD i 0)
      = (dnaAlphabet.map (fun b =>
          accum (maxContribs seqs (seqs.map (fun seq => exRow seq pfm bg L)) L) b i)).map
          (fun x => x / (seqs.length : ℚ)) := by
    rw [List.map_map]
    apply List.map_congr_left
    intro b _
    show (maximize_pfm seqs _ L b).getD i 0 = _
    unfold maximize_pfm
    rw [getD_map_range _ _ _ _ hi]
    rfl
  rw [h1, sum_map_div,
    sum_accum_over_alph dnaAlphabet (by decide) _
      (maxContribs_chars seqs _ L hchars) i]
  unfold maxContribs
  rw [sum_flatMap]
  have h2 : ∀ sid ∈ List.range seqs.length,
      (((List.range (numWindows (seqs.getD sid []).length L)).flatMap (fun start =>
          (List.range L).map (fun i' => ((seqs.getD sid []).getD (start + i') '?', i',
            ((seqs.map (fun seq => exRow seq pfm bg L)).getD sid []).getD start 0)))).map
        (fun t => if i = t.2.1 then t.2.2 else 0)).sum = 1 := by
    intro sid hsid
    have hsid' := List.mem_range.mp hsid
    rw [sum_flatMap]
    have h3 : ∀ start ∈ List.range (numWindows (seqs.getD sid []).length L),
        (((List.range L).map (fun i' => ((seqs.getD sid []).getD (start + i') '?', i',
            ((seqs.map (fun seq => exRow seq pfm bg L)).getD sid []).getD start 0))).map
          (fun t => if i = t.2.1 then t.2.2 else 0)).sum
        = ((seqs.map (fun seq => exRow seq pfm bg L)).getD sid []).getD start 0 := by
      intro start _
      rw [List.map_map]
      rw [show ((fun t : Char × ℕ × ℚ => if i = t.2.1 then t.2.2 else 0) ∘
          (fun i' => ((seqs.getD sid []).getD (start + i') '?', i',
            ((seqs.map (fun seq => exRow seq pfm bg L)).getD sid []).getD start 0)))
        = (fun i' => if i = i'
            then ((seqs.map (fun seq => exRow seq pfm bg L)).getD sid []).getD start 0
            else 0) from rfl]
      rw [sum_range_ite, if_pos hi]
    rw [List.map_congr_left h3]
    have hrow : (seqs.map (fun seq => exRow seq pfm bg L)).getD sid []
        = exRow (seqs.getD sid []) pfm bg L :=
      getD_map_of_lt _ seqs sid hsid' [] []
    rw [hrow]
    have hlen : numWindows (seqs.getD sid []).length L
        = (exRow (seqs.getD sid []) pfm bg L).length :=
      (exRow_length _ pfm bg L).symm
    rw [hlen, sum_range_getD]
    have hmemseq : seqs.getD sid [] ∈ seqs := getD_mem seqs sid [] hsid'
    have hnw : 0 < numWindows (seqs.getD sid []).length L :=
      numWindows_pos _ _ (hgood _ hmemseq).1
    have hsne : sitesOf (seqs.getD sid []) L ≠ [] := by
      apply List.length_pos.mp
      simpa [sitesOf] using hnw
    exact exRow_sum_one _ pfm bg L (hc _ hmemseq hsne).2
  rw [List.map_congr_left h2, sum_range_const, mul_one]
  apply div_self
  have hlen0 : seqs.length ≠ 0 := by
    intro h0
    exact hne (List.length_eq_zero.mp h0)
  exact_mod_cast hlen0

theorem gibbs_ppm_colsum (seqs : List (List Char × ℕ)) (j i : ℕ) (hi : i < M) :
    (protein_alphabet.map (fun b => (build_ppm seqs j b).getD i 0)).sum = 1 := by
  have h1 : protein_alphabet.map (fun b => (build_ppm seqs j b).getD i 0)
      = (protein_alphabet.map (fun b =>
          ppmCount seqs j b i + pseudocount / (protein_alphabet.length : ℚ))).map
          (fun x => x / (total_at_each_pos seqs j i + pseudocount)) := by
    rw [List.map_map]
    apply List.map_congr_left
    intro b _
    show (build_ppm seqs j b).getD i 0 = _
    unfold build_ppm
    rw [getD_map_range _ _ _ _ hi]
    rfl
  rw [h1, sum_map_div, sum_map_add]
  have h2 : (protein_alphabet.map
      (fun _ => pseudocount / (protein_alphabet.length : ℚ))).sum = pseudocount := by
    rw [sum_map_const]
    norm_num [protein_alphabet, pseudocount]
  rw [h2]
  exact div_self (build_ppm_denom_pos seqs j i).ne'

/-- C6: for a non-empty alphabet-valid corpus and a valid motif length,
every column of the initial EM PFM, of the re-estimated EM PFM built from
the expectation step's responsibilities, and of the Gibbs leave-one-out
PPM with pseudocount smoothing sums to 1 within tolerance 1e-9 (in exact
arithmetic the sums are exactly 1). -/
theorem all_matrix_columns_sum_to_one :
    (∀ seqs L, 0 < L → seqs ≠ [] →
        (∀ s ∈ seqs, L ≤ s.length ∧ ∀ c ∈ s, c ∈ dnaAlphabet) →
        ∀ i < L,
          |(dnaAlphabet.map (fun b => (initPfm seqs L b).getD i 0)).sum - 1|
            ≤ 1 / 1000000000)
      ∧ (∀ seqs pfm bg L w, calculate_expectation seqs pfm bg L = some w →
          seqs ≠ [] → (∀ s ∈ seqs, L ≤ s.length ∧ ∀ c ∈ s, c ∈ dnaAlphabet) →
          ∀ i < L,
            |(dnaAlphabet.map (fun b => (maximize_pfm seqs w L b).getD i 0)).sum - 1|
              ≤ 1 / 1000000000)
      ∧ (∀ seqs j,
          (∀ p ∈ seqs, p.2 + M ≤ p.1.length ∧ ∀ c ∈ p.1, c ∈ protein_alphabet) →
          ∀ i < M,
            |(protein_alphabet.map (fun b => (build_ppm seqs j b).getD i 0)).sum - 1|
              ≤ 1 / 1000000000) := by
  refine ⟨?_, ?_, ?_⟩
  · intro seqs L _ hne hgood i hi
    rw [em_init_colsum seqs L hne hgood i hi]
    norm_num
  · intro seqs pfm bg L w h hne hgood i hi
    rw [em_max_colsum seqs pfm bg L w h hne hgood i hi]
    norm_num
  · intro seqs j _ i hi
    rw [gibbs_ppm_colsum seqs j i hi]
    norm_num

/-- Witness for C6: all three constructions at concrete corpora. -/
theorem all_matrix_columns_sum_to_one_witness :
    (∀ i < 1,
        |(dnaAlphabet.map (fun b =>
            (initPfm [['A', 'T', 'G', 'C']] 1 b).getD i 0)).sum - 1|
          ≤ 1 / 1000000000)
      ∧ (∀ i < 1,
          |(dnaAlphabet.map (fun b => (maximize_pfm c7seqs [[1]] 1 b).getD i 0)).sum - 1|
            ≤ 1 / 1000000000)
      ∧ (∀ i < M,
          |(protein_alphabet.map (fun b => (build_ppm c4seqs 0 b).getD i 0)).sum - 1|
            ≤ 1 / 1000000000) :=
  ⟨all_matrix_columns_sum_to_one.1 [['A', 'T', 'G', 'C']] 1 (by norm_num)
      (by decide) (by decide),
    all_matrix_columns_sum_to_one.2.1 c7seqs c7pfm c7bg 1 [[1]] c7eval
      (by decide) (by decide),
    all_matrix_columns_sum_to_one.2.2 c4seqs 0 (by decide)⟩

/-! ### Claim C5 -/

theorem foldl_max_init (t : List ℝ) : ∀ a : ℝ, a ≤ t.foldl max a := by
  induction t with
  | nil => intro a; exact le_refl a
  | cons b t ih =>
      intro a
      exact le_trans (le_max_left a b) (ih (max a b))

theorem foldl_max_mem (t : List ℝ) : ∀ (a x : ℝ), x ∈ t → x ≤ t.foldl max a := by
  induction t with
  | nil => intro a x hx; cases hx
  | cons b t ih =>
      intro a x hx
      rcases List.mem_cons.mp hx with h | h
      · rw [h]
        exact le_trans (le_max_right a b) (foldl_max_init t (max a b))
      · exact ih (max a b) x h

theorem le_pyMax (l : List ℝ) (x : ℝ) (hx : x ∈ l) : x ≤ pyMax l := by
  cases l with
  | nil => cases hx
  | cons a t =>
      rcases List.mem_cons.mp hx with h | h
      · rw [h]
        exact foldl_max_init t a
      · exact foldl_max_mem t a x h

theorem foldl_max_le (t : List ℝ) : ∀ a v : ℝ, a ≤ v → (∀ x ∈ t, x ≤ v) →
    t.foldl max a ≤ v := by
  induction t with
  | nil => intro a v ha _; exact ha
  | cons b t ih =>
      intro a v ha hall
      exact ih (max a b) v (max_le ha (hall b (by simp)))
        (fun x hx => hall x (by simp [hx]))

theorem pyMax_le (l : List ℝ) (hl : l ≠ []) (v : ℝ) (h : ∀ x ∈ l, x ≤ v) :
    pyMax l ≤ v := by
  cases l with
  | nil => exact absurd rfl hl
  | cons a t =>
      exact foldl_max_le t a v (h a (by simp)) (fun x hx => h x (by simp [hx]))

theorem pwm_entry (ppm : Char → List ℚ) (bg : Char → ℚ) (s : Char) (i : ℕ)
    (hi : i < M) :
    (ppm_to_pwm ppm bg s).getD i 0
      = Real.logb 2 (((ppm s).getD i 0 : ℝ) / (bg s : ℝ)) := by
  unfold ppm_to_pwm
  rw [getD_map_range _ _ _ _ hi]

/-- C5 (amended): for a positive PPM/background pair, the per-column
maximum of the PWM equals the log-odds of the symbol that maximizes the
ratio ppm[s][i] / background[s] — which is the most frequent symbol of the
column only when that symbol also maximizes the ratio (for example under a
uniform background). -/
theorem colmax_pwm_is_logb_of_max_ratio (ppm : Char → List ℚ) (bg : Char → ℚ)
    (i : ℕ) (hi : i < M) (b : Char) (hb : b ∈ protein_alphabet)
    (hpos : ∀ s ∈ protein_alphabet, 0 < (ppm s).getD i 0 ∧ 0 < bg s)
    (hmax : ∀ s ∈ protein_alphabet,
      (ppm s).getD i 0 / bg s ≤ (ppm b).getD i 0 / bg b) :
    colMaxPWM (ppm_to_pwm ppm bg) i
      = Real.logb 2 (((ppm b).getD i 0 : ℝ) / (bg b : ℝ)) := by
  unfold colMaxPWM
  apply le_antisymm
  · apply pyMax_le _ (by simp [protein_alphabet]) _
    intro x hx
    rcases List.mem_map.mp hx with ⟨s, hs, rfl⟩
    rw [pwm_entry ppm bg s i hi]
    have hxpos : (0 : ℝ) < ((ppm s).getD i 0 : ℝ) / (bg s : ℝ) := by
      have h1 := (hpos s hs).1
      have h2 := (hpos s hs).2
      apply div_pos <;> exact_mod_cast ‹_›
    have hR : ((ppm s).getD i 0 : ℝ) / (bg s : ℝ)
        ≤ ((ppm b).getD i 0 : ℝ) / (bg b : ℝ) := by
      exact_mod_cast hmax s hs
    exact Real.logb_le_logb_of_le (by norm_num) hxpos hR
  · apply le_pyMax
    exact List.mem_map.mpr ⟨b, hb, pwm_entry ppm bg b i hi⟩

theorem cPpm_entry (b : Char) (i : ℕ) (hi : i < M) :
    (cPpm b).getD i 0
      = (if b = 'A' then 1 / 2 else if b = 'C' then 3 / 10 else 1 / 90) := by
  unfold cPpm
  rw [List.getD_eq_getElem _ _ (by simpa [List.length_replicate] using hi)]
  simp

/-- C5 counterexample: a well-formed PPM/background pair — columns sum
to 1, background positive and summing to 1 — whose column-0 most frequent
symbol is strictly A, yet the per-column PWM maximum is log2 3 (attained
at C, the symbol with the best odds ratio) and not A's log-odds
log2 1 = 0. -/
theorem colmax_differs_from_most_frequent :
    (∀ i < M, (protein_alphabet.map (fun b => (cPpm b).getD i 0)).sum = 1)
      ∧ (protein_alphabet.map cBg).sum = 1
      ∧ (∀ s ∈ protein_alphabet, 0 < cBg s)
      ∧ (∀ s ∈ protein_alphabet, s ≠ 'A' →
          (cPpm s).getD 0 0 < (cPpm 'A').getD 0 0)
      ∧ colMaxPWM (ppm_to_pwm cPpm cBg) 0
          ≠ Real.logb 2 (((cPpm 'A').getD 0 0 : ℝ) / (cBg 'A' : ℝ)) := by
  have hM0 : (0 : ℕ) < M := by norm_num [M]
  refine ⟨?_, ?_, ?_, ?_, ?_⟩
  · intro i hi
    rw [List.map_congr_left (fun b _ => cPpm_entry b i hi)]
    simp +decide [protein_alphabet]
    norm_num
  · simp +decide [protein_alphabet, cBg]
    norm_num
  · intro s hs
    unfold cBg
    split_ifs <;> norm_num
  · intro s hs hne
    rw [cPpm_entry s 0 hM0, cPpm_entry 'A' 0 hM0, if_pos rfl, if_neg hne]
    by_cases hC : s = 'C'
    · rw [if_pos hC]; norm_num
    · rw [if_neg hC]; norm_num
  · have hC : (ppm_to_pwm cPpm cBg 'C').getD 0 0 = Real.logb 2 3 := by
      rw [pwm_entry cPpm cBg 'C' 0 hM0, cPpm_entry 'C' 0 hM0]
      have h1 : (if 'C' = 'A' then (1 : ℚ) / 2 else if 'C' = 'C' then 3 / 10 else 1 / 90)
          = 3 / 10 := by simp +decide
      have h2 : cBg 'C' = 1 / 10 := by simp +decide [cBg]
      rw [h1, h2]
      norm_num
    have hle : Real.logb 2 3 ≤ colMaxPWM (ppm_to_pwm cPpm cBg) 0 :=
      le_pyMax _ _ (List.mem_map.mpr ⟨'C', by decide, hC⟩)
    have hpos : 0 < Real.logb 2 3 := Real.logb_pos (by norm_num) (by norm_num)
    have hval : ((cPpm 'A').getD 0 0 : ℝ) / (cBg 'A' : ℝ) = 1 := by
      rw [cPpm_entry 'A' 0 hM0]
      have h2 : cBg 'A' = 1 / 2 := by simp [cBg]
      rw [if_pos rfl, h2]
      norm_num
    rw [hval, Real.logb_one]
    intro heq
    rw [heq] at hle
    linarith

/-- Witness for the amended C5 at the counterexample pair, with C the
ratio-maximizing symbol. -/
theorem colmax_pwm_is_logb_of_max_ratio_witness :
    colMaxPWM (ppm_to_pwm cPpm cBg) 0
      = Real.logb 2 (((cPpm 'C').getD 0 0 : ℝ) / (cBg 'C' : ℝ)) := by
  have hM0 : (0 : ℕ) < M := by norm_num [M]
  apply colmax_pwm_is_logb_of_max_ratio cPpm cBg 0 hM0 'C' (by decide)
  · intro s hs
    constructor
    · rw [cPpm_entry s 0 hM0]
      split_ifs <;> norm_num
    · unfold cBg
      split_ifs <;> norm_num
  · intro s hs
    have hC1 : (cPpm 'C').getD 0 0 = 3 / 10 := by
      rw [cPpm_entry 'C' 0 hM0]
      simp +decide
    have hC2 : cBg 'C' = 1 / 10 := by simp +decide [cBg]
    rw [cPpm_entry s 0 hM0, hC1, hC2]
    unfold cBg
    split_ifs <;> norm_num

end Motif
